import Mathlib

/-!
Verification of the motion-gated detection pipeline.

The definitions below are shallow embeddings of the Python source:
* `yolo_detector.py` — `YOLOv8Detector.preprocess` (letterbox geometry),
  `YOLOv8Detector.postprocess` (confidence filter, inverse mapping, clipping)
  and `YOLOv8Detector._nms` (greedy non-maximum suppression);
* `vision_processor.py` — `VisionProcessor.get_performance_stats` and
  `VisionProcessor.self_calibrate` (threshold self-calibration);
* `smart_observer.py` — `SmartObserver.detect_motion` (frame-differencing
  motion gate) together with the motion test in `SmartObserver.run`.

Machine floats are modelled by exact rationals; NumPy's NaN/inf results of a
zero-denominator division are modelled by `Option ℚ` with `none` standing for
the non-numeric result (any comparison `nan <= t` and `inf <= t` used by the
code is false, which `iouLE` reproduces).
-/

/-- A detection box in corner format `(x1, y1, x2, y2)`, the rows of
`boxes_for_nms` in `YOLOv8Detector.postprocess`. -/
structure Box where
  x1 : ℚ
  y1 : ℚ
  x2 : ℚ
  y2 : ℚ

/-- Box area, `areas = (x2 - x1) * (y2 - y1)` in `_nms`. -/
def area (b : Box) : ℚ := (b.x2 - b.x1) * (b.y2 - b.y1)

/-- Intersection area of two boxes, the `w * h` of `_nms` where
`w = np.maximum(0, xx2 - xx1)` and `h = np.maximum(0, yy2 - yy1)` with
`xx1 = max(x1[i], x1[j])`, `xx2 = min(x2[i], x2[j])` and likewise for `y`. -/
def interArea (a b : Box) : ℚ :=
  max 0 (min a.x2 b.x2 - max a.x1 b.x1) * max 0 (min a.y2 b.y2 - max a.y1 b.y1)

/-- The IoU computed by `_nms`:
`iou = intersection / (areas[i] + areas[j] - intersection)`.
NumPy performs this division without any zero-denominator guard; when the
denominator is `0` the float result is NaN (or inf), modelled here as `none`. -/
def iouOpt (a b : Box) : Option ℚ :=
  if area a + area b - interArea a b = 0 then none
  else some (interArea a b / (area a + area b - interArea a b))

/-- The comparison `iou <= iou_threshold` of `_nms`.  A NaN or inf value
(`none`) compares false, exactly as the NumPy comparison does. -/
def iouLE : Option ℚ → ℚ → Bool
  | none, _ => false
  | some v, t => decide (v ≤ t)

/-- Whether candidate box `b` survives suppression against kept box `a` at IoU
threshold `t`: the `mask = iou <= iou_threshold` test of `_nms`. -/
def survives (a b : Box) (t : ℚ) : Bool := iouLE (iouOpt a b) t

/-- A candidate entering NMS: its original index in the score array, its box
and its confidence score. -/
structure Cand where
  idx : ℕ
  box : Box
  score : ℚ

/-- Comparison by score, the key used by `scores.argsort()` in `_nms`. -/
def scoreLe (a b : Cand) : Prop := a.score ≤ b.score

instance : DecidableRel scoreLe := fun a b => inferInstanceAs (Decidable (a.score ≤ b.score))

/-- `order = scores.argsort()[::-1]` of `_nms`: an ascending sort by score,
reversed.  The model uses a stable insertion sort, which coincides with
NumPy's introsort on arrays below 16 elements; for larger arrays NumPy's
default sort leaves the relative order of equal scores unspecified, so no
theorem below relies on the model's tie order except on concrete inputs of
fewer than 16 candidates, where the model is exact. -/
def sortDesc (l : List Cand) : List Cand := (l.insertionSort scoreLe).reverse

/-- Candidates tagged with their positions starting from `i`, modelling NumPy
array indices. -/
def enumFrom : ℕ → List (Box × ℚ) → List Cand
  | _, [] => []
  | i, p :: ps => ⟨i, p.1, p.2⟩ :: enumFrom (i + 1) ps

/-- Candidates tagged with their original array indices. -/
def enumerate (l : List (Box × ℚ)) : List Cand := enumFrom 0 l

/-- The `while order.size > 0` loop of `_nms`: keep the head of the order,
then drop every remaining candidate whose IoU with it exceeds the threshold
(`order = order[1:][mask]` with `mask = iou <= iou_threshold`). -/
def nmsLoop (t : ℚ) : List Cand → List Cand
  | [] => []
  | c :: rest => c :: nmsLoop t (rest.filter fun d => survives c.box d.box t)
termination_by l => l.length
decreasing_by simpa using Nat.lt_succ_of_le (List.length_filter_le _ _)

/-- Full `_nms` on an indexed candidate list: sort by score descending, then
run the greedy suppression loop. -/
def nmsKeep (t : ℚ) (l : List (Box × ℚ)) : List Cand := nmsLoop t (sortDesc (enumerate l))

/-- The `keep` index list returned by `_nms`. -/
def nmsIdx (t : ℚ) (l : List (Box × ℚ)) : List ℕ := (nmsKeep t l).map Cand.idx

/-- The kept candidates as (box, score) rows, i.e. the arrays
`boxes_for_nms[keep]`, `confidences[keep]` that `postprocess` reads back
through the returned indices. -/
def nmsBoxes (t : ℚ) (l : List (Box × ℚ)) : List (Box × ℚ) :=
  (nmsKeep t l).map fun c => (c.box, c.score)

/-- The confidence filter of `postprocess`:
`mask = confidences > self.conf_threshold` (a strict comparison). -/
def confFilter (t : ℚ) (cs : List (Box × ℚ)) : List (Box × ℚ) :=
  cs.filter fun p => decide (t < p.2)

/-- The detection list produced by `postprocess` from decoded candidates:
confidence filter, then NMS.  (The subsequent per-class filtering and the
integer casts only drop or rename entries and are orthogonal to the claims
about confidences and ordering.) -/
def postprocessDets (t iouT : ℚ) (cs : List (Box × ℚ)) : List (Box × ℚ) :=
  nmsBoxes iouT (confFilter t cs)

/-- The spec's wording of the IoU computation, for comparison with `iouOpt`:
`intersection_area / (areaA + areaB - intersection_area)`, "with `0` returned
when the denominator is `0` to avoid division faults". -/
def iouSpecZero (a b : Box) : ℚ :=
  if area a + area b - interArea a b = 0 then 0
  else interArea a b / (area a + area b - interArea a b)

/-- The letterbox parameters computed by `YOLOv8Detector.preprocess`. -/
structure Letterbox where
  scale : ℚ
  new_w : ℤ
  new_h : ℤ
  pad_x : ℤ
  pad_y : ℤ

/-- `preprocess` geometry: `scale = min(input_w/original_w, input_h/original_h)`,
`new_w = int(original_w * scale)` (Python `int` truncates; the operand is
nonnegative, so this is a floor), `pad_x = (input_w - new_w) // 2` (floor
division), and likewise for the height.  The source fixes
`input_w = input_h = dst`. -/
def letterboxCompute (w h dst : ℕ) : Letterbox :=
  let scale : ℚ := min ((dst : ℚ) / w) ((dst : ℚ) / h)
  let nw : ℤ := ⌊(w : ℚ) * scale⌋
  let nh : ℤ := ⌊(h : ℚ) * scale⌋
  ⟨scale, nw, nh, ((dst : ℤ) - nw).fdiv 2, ((dst : ℤ) - nh).fdiv 2⟩

/-- `np.clip(v, lo, hi)`. -/
def clip (v lo hi : ℚ) : ℚ := min (max v lo) hi

/-- The forward letterbox map applied by `preprocess` to a source-image point:
`(x * scale + pad_x, y * scale + pad_y)`. -/
def lbForward (lb : Letterbox) (x y : ℚ) : ℚ × ℚ :=
  (x * lb.scale + (lb.pad_x : ℚ), y * lb.scale + (lb.pad_y : ℚ))

/-- The inverse map applied by `postprocess` to a model-space point:
`((x - pad_x) / scale, (y - pad_y) / scale)`, then clipped to the source image
bounds with `np.clip(·, 0, original_w)` / `np.clip(·, 0, original_h)`. -/
def lbInverse (lb : Letterbox) (w h : ℕ) (x y : ℚ) : ℚ × ℚ :=
  (clip ((x - (lb.pad_x : ℚ)) / lb.scale) 0 w, clip ((y - (lb.pad_y : ℚ)) / lb.scale) 0 h)

/-- `get_performance_stats`: `avg_confidence` is the mean of
`detection_confidences` when that list is nonempty and the initial `0.0`
otherwise. -/
def statsAvgConf (confs : List ℚ) : ℚ :=
  if confs = [] then 0 else confs.sum / confs.length

/-- One `self_calibrate` threshold update of `VisionProcessor`:
lower by `0.05` floored at `0.3` when `avg_confidence < 0.4`, raise by `0.05`
capped at `0.8` when `avg_confidence > 0.9`, otherwise unchanged. -/
def selfCalibrate (thr : ℚ) (confs : List ℚ) : ℚ :=
  if statsAvgConf confs < 2/5 then max (3/10) (thr - 1/20)
  else if 9/10 < statsAvgConf confs then min (4/5) (thr + 1/20)
  else thr

/-- Iterated recalibration: each entry of `ws` is the confidence window seen
by one `self_calibrate` call. -/
def calibrateRuns (thr : ℚ) (ws : List (List ℚ)) : ℚ := ws.foldl selfCalibrate thr

/-- One step of `SmartObserver.detect_motion` on the grayscale, blurred,
downscaled representation of a frame (a pixel list): with no stored previous
frame, store the current one and report `0.0`; otherwise report the
percentage of pixels whose absolute difference exceeds the binarization
cutoff `25`, and store the current frame. -/
def motionPct (prev cur : List ℕ) : ℚ :=
  100 * ((List.zipWith (fun a b => max a b - min a b) prev cur).countP fun d => decide (25 < d))
    / ((List.zipWith (fun a b => max a b - min a b) prev cur).length)

/-- `SmartObserver.detect_motion`: returns the new stored frame and the
changed percentage. -/
def detectMotion (prev : Option (List ℕ)) (g : List ℕ) : Option (List ℕ) × ℚ :=
  match prev with
  | none => (some g, 0)
  | some p => (some g, motionPct p g)

/-- The motion decision of `SmartObserver.run`: the frame is treated as
motion-free exactly when `motion < MOTION_THRESHOLD` (3.0). -/
def hasMotion (pct : ℚ) : Bool := !(decide (pct < 3))

/-- Strict ascending order on candidates: by score, ties by original index. -/
def rLex (a b : Cand) : Prop :=
  a.score < b.score ∨ (a.score = b.score ∧ a.idx < b.idx)

-- ---------------------------------------------------------------------------
-- Helper lemmas
-- ---------------------------------------------------------------------------

theorem interArea_comm (a b : Box) : interArea a b = interArea b a := by
  unfold interArea
  rw [min_comm a.x2 b.x2, max_comm a.x1 b.x1, min_comm a.y2 b.y2, max_comm a.y1 b.y1]

theorem iouOpt_comm (a b : Box) : iouOpt a b = iouOpt b a := by
  unfold iouOpt
  rw [interArea_comm, add_comm (area a)]

theorem survives_symm (a b : Box) (t : ℚ) : survives a b t = survives b a t := by
  unfold survives
  rw [iouOpt_comm]

theorem survives_mono {t u : ℚ} (htu : t ≤ u) (a b : Box) :
    survives a b t = true → survives a b u = true := by
  unfold survives iouLE
  cases iouOpt a b with
  | none => simp
  | some v =>
      simp only [decide_eq_true_eq]
      exact fun hv => le_trans hv htu

theorem nmsLoop_sublist (t : ℚ) (l : List Cand) : (nmsLoop t l).Sublist l := by
  induction l using nmsLoop.induct t with
  | case1 => simp [nmsLoop]
  | case2 c rest ih =>
      rw [nmsLoop]
      exact List.Sublist.cons₂ c (ih.trans (List.filter_sublist rest))

theorem nmsLoop_pairwise (t : ℚ) (l : List Cand) :
    (nmsLoop t l).Pairwise fun a b => survives a.box b.box t = true := by
  induction l using nmsLoop.induct t with
  | case1 => simp [nmsLoop]
  | case2 c rest ih =>
      rw [nmsLoop]
      refine List.Pairwise.cons (fun d hd => ?_) ih
      have hmem : d ∈ rest.filter fun d => survives c.box d.box t :=
        (nmsLoop_sublist t _).subset hd
      exact (List.mem_filter.mp hmem).2

theorem nmsLoop_eq_self {t : ℚ} {l : List Cand}
    (h : l.Pairwise fun a b => survives a.box b.box t = true) : nmsLoop t l = l := by
  induction l with
  | nil => simp [nmsLoop]
  | cons c rest ih =>
      rw [nmsLoop, List.filter_eq_self.mpr (List.pairwise_cons.mp h).1,
        ih (List.pairwise_cons.mp h).2]

theorem sortDesc_perm (l : List Cand) : (sortDesc l).Perm l :=
  (List.reverse_perm _).trans (List.perm_insertionSort scoreLe l)

theorem sortDesc_length (l : List Cand) : (sortDesc l).length = l.length :=
  (sortDesc_perm l).length_eq

theorem enumFrom_map_proj (i : ℕ) (l : List (Box × ℚ)) :
    (enumFrom i l).map (fun c => (c.box, c.score)) = l := by
  induction l generalizing i with
  | nil => rfl
  | cons p ps ih => simp [enumFrom, ih]

theorem enumFrom_length (i : ℕ) (l : List (Box × ℚ)) : (enumFrom i l).length = l.length := by
  induction l generalizing i with
  | nil => rfl
  | cons p ps ih => simp [enumFrom, ih]

theorem mem_enumFrom_proj {c : Cand} {i : ℕ} {l : List (Box × ℚ)}
    (h : c ∈ enumFrom i l) : (c.box, c.score) ∈ l := by
  rw [← enumFrom_map_proj i l]
  exact List.mem_map_of_mem _ h

theorem mem_enumFrom_le {i : ℕ} {l : List (Box × ℚ)} :
    ∀ c ∈ enumFrom i l, i ≤ c.idx := by
  induction l generalizing i with
  | nil => intro c hc; simp [enumFrom] at hc
  | cons p ps ih =>
      intro c hc
      rcases List.mem_cons.mp hc with h | h
      · subst h; exact le_refl i
      · exact le_trans (Nat.le_succ i) (ih c h)

theorem enumFrom_pairwise_idx (i : ℕ) (l : List (Box × ℚ)) :
    (enumFrom i l).Pairwise fun a b => a.idx < b.idx := by
  induction l generalizing i with
  | nil => simp [enumFrom]
  | cons p ps ih =>
      refine List.Pairwise.cons (fun b hb => ?_) (ih (i + 1))
      exact lt_of_lt_of_le (Nat.lt_succ_self i) (mem_enumFrom_le b hb)

theorem enumFrom_pairwise_of (T : Box × ℚ → Box × ℚ → Prop) {l : List (Box × ℚ)}
    (h : l.Pairwise T) (i : ℕ) :
    (enumFrom i l).Pairwise fun a b => T (a.box, a.score) (b.box, b.score) := by
  induction l generalizing i with
  | nil => simp [enumFrom]
  | cons p ps ih =>
      rw [List.pairwise_cons] at h
      refine List.Pairwise.cons (fun b hb => ?_) (ih h.2 (i + 1))
      exact h.1 _ (mem_enumFrom_proj hb)

theorem mem_orderedInsert_scoreLe (c a : Cand) (s : List Cand) :
    c ∈ List.orderedInsert scoreLe a s → c = a ∨ c ∈ s := by
  intro h
  rcases (List.mem_orderedInsert scoreLe).mp h with h | h
  · exact Or.inl h
  · exact Or.inr h

theorem orderedInsert_pairwise_lex {a : Cand} {s : List Cand}
    (hs : s.Pairwise rLex) (hidx : ∀ b ∈ s, a.idx < b.idx) :
    (List.orderedInsert scoreLe a s).Pairwise rLex := by
  induction s with
  | nil => simp [List.orderedInsert]
  | cons b s ih =>
      rw [List.orderedInsert]
      by_cases hab : scoreLe a b
      · rw [if_pos hab]
        refine List.Pairwise.cons (fun c hc => ?_) hs
        rcases List.mem_cons.mp hc with h | h
        · subst h
          rcases lt_or_eq_of_le hab with h | h
          · exact Or.inl h
          · exact Or.inr ⟨h, hidx c (List.mem_cons_self c s)⟩
        · have hbc : rLex b c := (List.pairwise_cons.mp hs).1 c h
          rcases hbc with hbc | hbc
          · exact Or.inl (lt_of_le_of_lt hab hbc)
          · rcases lt_or_eq_of_le (le_of_le_of_eq hab hbc.1) with h2 | h2
            · exact Or.inl h2
            · exact Or.inr ⟨h2, hidx c (List.mem_cons_of_mem b h)⟩
      · rw [if_neg hab]
        have hba : b.score < a.score := lt_of_not_le hab
        refine List.Pairwise.cons (fun c hc => ?_)
          (ih (List.pairwise_cons.mp hs).2 fun c hc => hidx c (List.mem_cons_of_mem b hc))
        rcases mem_orderedInsert_scoreLe c a s hc with h | h
        · subst h; exact Or.inl hba
        · exact (List.pairwise_cons.mp hs).1 c h

theorem insertionSort_pairwise_lex {l : List Cand}
    (h : l.Pairwise fun a b => a.idx < b.idx) :
    (l.insertionSort scoreLe).Pairwise rLex := by
  induction l with
  | nil => simp
  | cons a l ih =>
      rw [List.insertionSort]
      refine orderedInsert_pairwise_lex (ih (List.pairwise_cons.mp h).2) fun b hb => ?_
      exact (List.pairwise_cons.mp h).1 b ((List.perm_insertionSort scoreLe l).subset hb)

theorem sortDesc_pairwise_lex {l : List Cand}
    (h : l.Pairwise fun a b => a.idx < b.idx) :
    (sortDesc l).Pairwise fun a b => rLex b a := by
  unfold sortDesc
  rw [List.pairwise_reverse]
  exact insertionSort_pairwise_lex h

theorem mem_nmsKeep {t : ℚ} {bs : List (Box × ℚ)} {c : Cand}
    (h : c ∈ nmsKeep t bs) : (c.box, c.score) ∈ bs := by
  unfold nmsKeep at h
  exact mem_enumFrom_proj ((sortDesc_perm _).subset ((nmsLoop_sublist _ _).subset h))

theorem mem_nmsBoxes {t : ℚ} {bs : List (Box × ℚ)} {p : Box × ℚ}
    (h : p ∈ nmsBoxes t bs) : p ∈ bs := by
  unfold nmsBoxes at h
  rcases List.mem_map.mp h with ⟨c, hc, rfl⟩
  exact mem_nmsKeep hc

theorem nmsLoop_pair (t : ℚ) (c d : Cand) :
    nmsLoop t [c, d] = if survives c.box d.box t = true then [c, d] else [c] := by
  rw [nmsLoop]
  by_cases h : survives c.box d.box t = true
  · simp [List.filter_cons, h, nmsLoop]
  · simp [List.filter_cons, h, nmsLoop]

theorem nmsLoop_length_mono_two {l : List Cand} (hlen : l.length ≤ 2) {t u : ℚ}
    (htu : t ≤ u) : (nmsLoop t l).length ≤ (nmsLoop u l).length := by
  match l with
  | [] => simp [nmsLoop]
  | [c] => simp [nmsLoop]
  | [c, d] =>
      rw [nmsLoop_pair, nmsLoop_pair]
      by_cases h : survives c.box d.box t = true
      · rw [if_pos h, if_pos (survives_mono htu _ _ h)]
      · rw [if_neg h]
        split_ifs <;> simp
  | c :: d :: e :: l' => simp at hlen

theorem nmsLoop_triple (t : ℚ) (c d e : Cand) :
    (nmsLoop t [c, d, e]).length =
      if survives c.box d.box t = true then
        if survives c.box e.box t = true then
          if survives d.box e.box t = true then 3 else 2
        else 2
      else if survives c.box e.box t = true then 2 else 1 := by
  rw [nmsLoop]
  by_cases hd : survives c.box d.box t = true <;>
    by_cases he : survives c.box e.box t = true
  · rw [if_pos hd, if_pos he]
    have hf : List.filter (fun x => survives c.box x.box t) [d, e] = [d, e] := by
      simp [List.filter_cons, hd, he]
    rw [hf, nmsLoop_pair]
    by_cases hde : survives d.box e.box t = true <;> simp [hde]
  · rw [if_pos hd, if_neg he]
    have hf : List.filter (fun x => survives c.box x.box t) [d, e] = [d] := by
      simp [List.filter_cons, hd, he]
    rw [hf]
    simp [nmsLoop]
  · rw [if_neg hd, if_pos he]
    have hf : List.filter (fun x => survives c.box x.box t) [d, e] = [e] := by
      simp [List.filter_cons, hd, he]
    rw [hf]
    simp [nmsLoop]
  · rw [if_neg hd, if_neg he]
    have hf : List.filter (fun x => survives c.box x.box t) [d, e] = [] := by
      simp [List.filter_cons, hd, he]
    rw [hf]
    simp [nmsLoop]

theorem nmsLoop_length_mono_three {l : List Cand} (hlen : l.length ≤ 3) {t u : ℚ}
    (htu : t ≤ u) : (nmsLoop t l).length ≤ (nmsLoop u l).length := by
  match l with
  | [] => simp [nmsLoop]
  | [c] => simp [nmsLoop]
  | [c, d] => exact nmsLoop_length_mono_two (by simp) htu
  | [c, d, e] =>
      rw [nmsLoop_triple, nmsLoop_triple]
      have m1 := survives_mono htu c.box d.box
      have m2 := survives_mono htu c.box e.box
      have m3 := survives_mono htu d.box e.box
      split_ifs <;>
        first
          | exact absurd (m1 (by assumption)) (by assumption)
          | exact absurd (m2 (by assumption)) (by assumption)
          | exact absurd (m3 (by assumption)) (by assumption)
          | norm_num
  | c :: d :: e :: f :: l2 => simp at hlen

theorem selfCalibrate_bounds {thr : ℚ} (h1 : 3/10 ≤ thr) (h2 : thr ≤ 4/5)
    (confs : List ℚ) :
    3/10 ≤ selfCalibrate thr confs ∧ selfCalibrate thr confs ≤ 4/5 := by
  unfold selfCalibrate
  split_ifs with hlo hhi
  · exact ⟨le_max_left _ _, max_le (by norm_num) (by linarith)⟩
  · exact ⟨le_min (by norm_num) (by linarith), min_le_left _ _⟩
  · exact ⟨h1, h2⟩

theorem calibrateRuns_bounds {thr : ℚ} (h1 : 3/10 ≤ thr) (h2 : thr ≤ 4/5)
    (ws : List (List ℚ)) :
    3/10 ≤ calibrateRuns thr ws ∧ calibrateRuns thr ws ≤ 4/5 := by
  induction ws generalizing thr with
  | nil => exact ⟨h1, h2⟩
  | cons w ws ih =>
      have hb := selfCalibrate_bounds h1 h2 w
      exact ih hb.1 hb.2

theorem enumerate_map_proj (l : List (Box × ℚ)) :
    (enumerate l).map (fun c => (c.box, c.score)) = l := enumFrom_map_proj 0 l

theorem enumerate_length (l : List (Box × ℚ)) : (enumerate l).length = l.length :=
  enumFrom_length 0 l

-- ---------------------------------------------------------------------------
-- Claim theorems
-- ---------------------------------------------------------------------------

/-- Claim C7: for positive source dimensions and a positive model input size,
any point inside the source image comes back from the forward letterbox map
followed by the inverse map (with its clipping) within 1 pixel per axis; in
the exact-arithmetic model the round trip is in fact exact. -/
theorem letterbox_roundtrip (w h dst : ℕ) (hw : 0 < w) (hh : 0 < h) (hd : 0 < dst)
    (x y : ℚ) (hx0 : 0 ≤ x) (hx1 : x ≤ w) (hy0 : 0 ≤ y) (hy1 : y ≤ h) :
    |(lbInverse (letterboxCompute w h dst) w h
        (lbForward (letterboxCompute w h dst) x y).1
        (lbForward (letterboxCompute w h dst) x y).2).1 - x| ≤ 1 ∧
      |(lbInverse (letterboxCompute w h dst) w h
        (lbForward (letterboxCompute w h dst) x y).1
        (lbForward (letterboxCompute w h dst) x y).2).2 - y| ≤ 1 := by
  have hs : 0 < (letterboxCompute w h dst).scale := by
    have h1 : (0:ℚ) < (dst:ℚ) / w := div_pos (by exact_mod_cast hd) (by exact_mod_cast hw)
    have h2 : (0:ℚ) < (dst:ℚ) / h := div_pos (by exact_mod_cast hd) (by exact_mod_cast hh)
    exact lt_min h1 h2
  simp only [lbForward, lbInverse]
  rw [add_sub_cancel_right, add_sub_cancel_right,
    mul_div_cancel_right₀ x (ne_of_gt hs), mul_div_cancel_right₀ y (ne_of_gt hs)]
  unfold clip
  rw [max_eq_left hx0, min_eq_left hx1, max_eq_left hy0, min_eq_left hy1]
  simp

theorem letterbox_roundtrip_witness :
    ((0:ℕ) < 640 ∧ (0:ℕ) < 480 ∧ (0:ℚ) ≤ 10 ∧ (10:ℚ) ≤ 640 ∧ (0:ℚ) ≤ 20 ∧ (20:ℚ) ≤ 480) ∧
      |(lbInverse (letterboxCompute 640 480 640) 640 480
        (lbForward (letterboxCompute 640 480 640) 10 20).1
        (lbForward (letterboxCompute 640 480 640) 10 20).2).1 - 10| ≤ 1 ∧
      |(lbInverse (letterboxCompute 640 480 640) 640 480
        (lbForward (letterboxCompute 640 480 640) 10 20).1
        (lbForward (letterboxCompute 640 480 640) 10 20).2).2 - 20| ≤ 1 :=
  ⟨by norm_num,
    letterbox_roundtrip 640 480 640 (by norm_num) (by norm_num) (by norm_num) 10 20
      (by norm_num) (by norm_num) (by norm_num) (by norm_num)⟩

/-- Claim C8: if the confidence threshold starts inside `[0.3, 0.8]` it stays
inside those bounds after any number of self-calibration steps with any
recorded sample windows; and one step lowers by `0.05` floored at `0.3` when
the window mean is below `0.4`, raises by `0.05` capped at `0.8` when the
mean exceeds `0.9`, and otherwise leaves the threshold unchanged. -/
theorem calibrator_bounds (thr : ℚ) (h1 : 3/10 ≤ thr) (h2 : thr ≤ 4/5) :
    (∀ ws : List (List ℚ), 3/10 ≤ calibrateRuns thr ws ∧ calibrateRuns thr ws ≤ 4/5) ∧
      ∀ confs : List ℚ,
        (statsAvgConf confs < 2/5 → selfCalibrate thr confs = max (3/10) (thr - 1/20)) ∧
        (2/5 ≤ statsAvgConf confs → statsAvgConf confs ≤ 9/10 → selfCalibrate thr confs = thr) ∧
        (9/10 < statsAvgConf confs → selfCalibrate thr confs = min (4/5) (thr + 1/20)) := by
  refine ⟨fun ws => calibrateRuns_bounds h1 h2 ws, fun confs => ⟨?_, ?_, ?_⟩⟩
  · intro hlo
    unfold selfCalibrate
    rw [if_pos hlo]
  · intro ha hb
    unfold selfCalibrate
    rw [if_neg (not_lt.mpr ha), if_neg (not_lt.mpr hb)]
  · intro hhi
    unfold selfCalibrate
    rw [if_neg (not_lt.mpr (by linarith)), if_pos hhi]

theorem calibrator_bounds_witness :
    ((3:ℚ)/10 ≤ 2/5 ∧ (2:ℚ)/5 ≤ 4/5) ∧
      3/10 ≤ calibrateRuns (2/5) [[1, 1], [0], []] ∧
      calibrateRuns (2/5) [[1, 1], [0], []] ≤ 4/5 :=
  ⟨⟨by norm_num, by norm_num⟩,
    (calibrator_bounds (2/5) (by norm_num) (by norm_num)).1 [[1, 1], [0], []]⟩

/-- Claim C9: the first `detect_motion` call (no stored previous frame)
returns changed fraction `0.0` and stores the current frame, whatever the
frame content, and the caller's motion test on that fraction reports no
motion. -/
theorem motion_gate_first_frame (g : List ℕ) :
    detectMotion none g = (some g, 0) ∧ hasMotion (detectMotion none g).2 = false := by
  refine ⟨rfl, ?_⟩
  show hasMotion 0 = false
  norm_num [hasMotion]

/-- Claim C10: with an empty confidence window, `get_performance_stats`
reports average confidence `0.0`, so `self_calibrate` takes the low-mean
branch and lowers the threshold by one step (floored at `0.3`) — a strict
decrease whenever the threshold is above the floor — rather than leaving it
unchanged. -/
theorem calibrator_empty_window_decreases (thr : ℚ) :
    statsAvgConf ([] : List ℚ) = 0 ∧
      selfCalibrate thr [] = max (3/10) (thr - 1/20) ∧
      (3/10 < thr → selfCalibrate thr [] < thr) := by
  have h0 : statsAvgConf ([] : List ℚ) = 0 := rfl
  have h1 : selfCalibrate thr [] = max (3/10) (thr - 1/20) := by
    unfold selfCalibrate
    rw [h0]
    norm_num
  exact ⟨h0, h1, fun h => by rw [h1]; exact max_lt h (by linarith)⟩

theorem calibrator_empty_window_decreases_witness :
    statsAvgConf ([] : List ℚ) = 0 ∧
      selfCalibrate (2/5) [] = max (3/10) (2/5 - 1/20) ∧
      selfCalibrate (2/5) [] < 2/5 :=
  ⟨(calibrator_empty_window_decreases (2/5)).1,
    (calibrator_empty_window_decreases (2/5)).2.1,
    (calibrator_empty_window_decreases (2/5)).2.2 (by norm_num)⟩

/-- Claim C1 (amended): for candidate lists with at most three boxes, raising
the IoU threshold never decreases the number of kept boxes.  With four or
more candidates greedy NMS is not monotone: the counterexample needs an
intermediate box that, once it survives the larger threshold, suppresses two
boxes that previously survived. -/
theorem nms_threshold_mono_three_candidates {bs : List (Box × ℚ)} (hlen : bs.length ≤ 3)
    {t u : ℚ} (htu : t ≤ u) : (nmsKeep t bs).length ≤ (nmsKeep u bs).length := by
  unfold nmsKeep
  refine nmsLoop_length_mono_three ?_ htu
  rw [sortDesc_length, enumerate_length]
  exact hlen

theorem nms_threshold_mono_three_candidates_witness :
    ([((⟨12, 0, 18, 10⟩ : Box), (9:ℚ)/10), (⟨0, 0, 30, 10⟩, 4/5),
        (⟨0, 0, 12, 10⟩, 7/10)].length ≤ 3) ∧
      ((1:ℚ)/10 ≤ 3/10) ∧
      (nmsKeep ((1:ℚ)/10) [(⟨12, 0, 18, 10⟩, 9/10), (⟨0, 0, 30, 10⟩, 4/5),
          (⟨0, 0, 12, 10⟩, 7/10)]).length ≤
        (nmsKeep ((3:ℚ)/10) [(⟨12, 0, 18, 10⟩, 9/10), (⟨0, 0, 30, 10⟩, 4/5),
          (⟨0, 0, 12, 10⟩, 7/10)]).length :=
  ⟨by norm_num, by norm_num, nms_threshold_mono_three_candidates (by norm_num) (by norm_num)⟩

/-- Claim C1 counterexample: four candidates for which raising the IoU
threshold from `0.1` to `0.3` shrinks the kept set from 3 boxes to 2, so the
kept count is not monotone in the threshold.  At `0.1` the top box suppresses
the wide second box (IoU `0.2 > 0.1`) and the two side boxes survive; at
`0.3` the wide box survives (IoU `0.2 ≤ 0.3`) and then suppresses both side
boxes (IoU `0.4 > 0.3`). -/
theorem nms_threshold_mono_counterexample :
    (1:ℚ)/10 ≤ 3/10 ∧
      (nmsKeep ((1:ℚ)/10) [(⟨12, 0, 18, 10⟩, 9/10), (⟨0, 0, 30, 10⟩, 4/5),
        (⟨0, 0, 12, 10⟩, 7/10), (⟨18, 0, 30, 10⟩, 3/5)]).length = 3 ∧
      (nmsKeep ((3:ℚ)/10) [(⟨12, 0, 18, 10⟩, 9/10), (⟨0, 0, 30, 10⟩, 4/5),
        (⟨0, 0, 12, 10⟩, 7/10), (⟨18, 0, 30, 10⟩, 3/5)]).length = 2 := by
  refine ⟨by norm_num, ?_, ?_⟩ <;>
    norm_num [nmsKeep, enumerate, enumFrom, sortDesc, List.insertionSort,
      List.orderedInsert, scoreLe, nmsLoop, List.filter_cons, survives, iouOpt, iouLE,
      interArea, area]

/-- Claim C3 (amended): the NMS output is deterministic and in
confidence-descending keep order, but the tie-break is not
original-index-ascending: `argsort` sorts ascending, so the reversal puts
tied scores in descending index order whenever the underlying sort is stable
(NumPy guarantees stability below 16 elements, as in the counterexample; for
larger arrays the default introsort leaves the tie order unspecified).  The
theorem states the tie-order-independent part: confidences along the keep
list never increase. -/
theorem nms_keep_score_desc (t : ℚ) (bs : List (Box × ℚ)) :
    (nmsKeep t bs).Pairwise fun a b => b.score ≤ a.score := by
  have h := sortDesc_pairwise_lex (l := enumerate bs) (enumFrom_pairwise_idx 0 bs)
  have h2 := List.Pairwise.sublist (nmsLoop_sublist t (sortDesc (enumerate bs))) h
  refine h2.imp ?_
  intro a b hab
  have hab2 : b.score < a.score ∨ (b.score = a.score ∧ b.idx < a.idx) := hab
  rcases hab2 with hlt | ⟨heq, -⟩
  · exact le_of_lt hlt
  · exact le_of_eq heq

/-- Claim C3 counterexample: two disjoint boxes with equal confidence `0.5`
(an array of 2 elements, where NumPy's argsort is a stable insertion sort);
`_nms` visits and keeps them in index order `[1, 0]`, not the ascending
`[0, 1]` order the claim states. -/
theorem nms_tie_order_counterexample :
    nmsIdx ((9:ℚ)/20) [(⟨0, 0, 10, 10⟩, 1/2), (⟨20, 20, 30, 30⟩, 1/2)] = [1, 0] ∧
      nmsIdx ((9:ℚ)/20) [(⟨0, 0, 10, 10⟩, 1/2), (⟨20, 20, 30, 30⟩, 1/2)] ≠ [0, 1] := by
  have h : nmsIdx ((9:ℚ)/20) [(⟨0, 0, 10, 10⟩, 1/2), (⟨20, 20, 30, 30⟩, 1/2)] = [1, 0] := by
    norm_num [nmsIdx, nmsKeep, enumerate, enumFrom, sortDesc, List.insertionSort,
      List.orderedInsert, scoreLe, nmsLoop, List.filter_cons, survives, iouOpt, iouLE,
      interArea, area]
  refine ⟨h, ?_⟩
  rw [h]
  simp

/-- Claim C5 (amended): rerunning NMS on its own output suppresses nothing —
the result is a permutation of that output (for tied scores the sequence
order can flip, see the counterexample; for distinct scores it is equal). -/
theorem nms_idem_perm (t : ℚ) (bs : List (Box × ℚ)) :
    (nmsBoxes t (nmsBoxes t bs)).Perm (nmsBoxes t bs) := by
  have main : ∀ out : List (Box × ℚ),
      (out.Pairwise fun p q => survives p.1 q.1 t = true) → (nmsBoxes t out).Perm out := by
    intro out hpw
    have h1 : (enumerate out).Pairwise fun a b => survives a.box b.box t = true :=
      enumFrom_pairwise_of (fun p q => survives p.1 q.1 t = true) hpw 0
    have hsym : ∀ {a b : Cand},
        survives a.box b.box t = true → survives b.box a.box t = true := by
      intro a b hab
      rw [survives_symm]
      exact hab
    have h2 : (sortDesc (enumerate out)).Pairwise
        fun a b => survives a.box b.box t = true :=
      (List.Perm.pairwise_iff hsym (sortDesc_perm (enumerate out))).mpr h1
    have e1 : nmsBoxes t out
        = (sortDesc (enumerate out)).map (fun c => (c.box, c.score)) := by
      show (nmsLoop t (sortDesc (enumerate out))).map (fun c => (c.box, c.score)) = _
      rw [nmsLoop_eq_self h2]
    rw [e1]
    have p2 := (sortDesc_perm (enumerate out)).map (fun c => (c.box, c.score))
    rw [enumerate_map_proj out] at p2
    exact p2
  refine main (nmsBoxes t bs) ?_
  exact List.Pairwise.map _ (fun a b hab => hab) (nmsLoop_pairwise t (sortDesc (enumerate bs)))

/-- Claim C5 counterexample: two disjoint boxes with equal confidence.  NMS
keeps both but emits them as `[box1, box0]`; rerunning NMS on that output
emits `[box0, box1]`, so NMS∘NMS differs from NMS as a sequence (the kept
set is the same). -/
theorem nms_idempotence_counterexample :
    nmsBoxes ((9:ℚ)/20) [(⟨0, 0, 10, 10⟩, 1/2), (⟨20, 20, 30, 30⟩, 1/2)]
        = [(⟨20, 20, 30, 30⟩, 1/2), (⟨0, 0, 10, 10⟩, 1/2)] ∧
      nmsBoxes ((9:ℚ)/20)
          (nmsBoxes ((9:ℚ)/20) [(⟨0, 0, 10, 10⟩, 1/2), (⟨20, 20, 30, 30⟩, 1/2)])
        = [(⟨0, 0, 10, 10⟩, 1/2), (⟨20, 20, 30, 30⟩, 1/2)] ∧
      nmsBoxes ((9:ℚ)/20)
          (nmsBoxes ((9:ℚ)/20) [(⟨0, 0, 10, 10⟩, 1/2), (⟨20, 20, 30, 30⟩, 1/2)])
        ≠ nmsBoxes ((9:ℚ)/20) [(⟨0, 0, 10, 10⟩, 1/2), (⟨20, 20, 30, 30⟩, 1/2)] := by
  have h1 : nmsBoxes ((9:ℚ)/20) [(⟨0, 0, 10, 10⟩, 1/2), (⟨20, 20, 30, 30⟩, 1/2)]
      = [(⟨20, 20, 30, 30⟩, 1/2), (⟨0, 0, 10, 10⟩, 1/2)] := by
    norm_num [nmsBoxes, nmsKeep, enumerate, enumFrom, sortDesc, List.insertionSort,
      List.orderedInsert, scoreLe, nmsLoop, List.filter_cons, survives, iouOpt, iouLE,
      interArea, area]
  have h2 : nmsBoxes ((9:ℚ)/20) [((⟨20, 20, 30, 30⟩ : Box), (1:ℚ)/2), (⟨0, 0, 10, 10⟩, 1/2)]
      = [(⟨0, 0, 10, 10⟩, 1/2), (⟨20, 20, 30, 30⟩, 1/2)] := by
    norm_num [nmsBoxes, nmsKeep, enumerate, enumFrom, sortDesc, List.insertionSort,
      List.orderedInsert, scoreLe, nmsLoop, List.filter_cons, survives, iouOpt, iouLE,
      interArea, area]
  refine ⟨h1, by rw [h1]; exact h2, ?_⟩
  rw [h1, h2]
  intro hEq
  have := List.head_eq_of_cons_eq hEq
  simp [Prod.ext_iff, Box.mk.injEq] at this

/-- Claim C2 (amended): the IoU is
`intersection / (areaA + areaB - intersection)`; when that denominator is `0`
the NumPy division yields a non-numeric value (NaN, modelled `none`) rather
than `0`, no fault occurs, and since `nan <= threshold` is false the
lower-scored of the two boxes is suppressed instead of kept. -/
theorem iou_zero_denominator_nan_suppresses (a b : Box) (s1 s2 t : ℚ) (hs : s2 < s1)
    (hden : area a + area b - interArea a b = 0) :
    iouOpt a b = none ∧ iouLE (iouOpt a b) t = false ∧
      nmsKeep t [(a, s1), (b, s2)] = [⟨0, a, s1⟩] := by
  have h1 : iouOpt a b = none := by
    unfold iouOpt
    rw [if_pos hden]
  have h2 : iouLE (iouOpt a b) t = false := by
    rw [h1]
    rfl
  refine ⟨h1, h2, ?_⟩
  have hns : ¬ scoreLe (⟨0, a, s1⟩ : Cand) ⟨1, b, s2⟩ := by
    simp only [scoreLe]
    exact not_le.mpr hs
  have hsv : survives a b t = false := h2
  show nmsLoop t (sortDesc (enumerate [(a, s1), (b, s2)])) = [⟨0, a, s1⟩]
  have he : enumerate [(a, s1), (b, s2)] = [⟨0, a, s1⟩, ⟨1, b, s2⟩] := rfl
  rw [he]
  have hsort : sortDesc [(⟨0, a, s1⟩ : Cand), ⟨1, b, s2⟩] = [⟨0, a, s1⟩, ⟨1, b, s2⟩] := by
    simp [sortDesc, List.insertionSort, List.orderedInsert, hns]
  rw [hsort, nmsLoop_pair]
  rw [if_neg (by simp [hsv])]

theorem iou_zero_denominator_nan_suppresses_witness :
    ((4:ℚ)/5 < 9/10 ∧
      area ⟨0, 0, 0, 0⟩ + area ⟨5, 5, 5, 5⟩ - interArea ⟨0, 0, 0, 0⟩ ⟨5, 5, 5, 5⟩ = 0) ∧
      iouOpt ⟨0, 0, 0, 0⟩ ⟨5, 5, 5, 5⟩ = none ∧
      iouLE (iouOpt ⟨0, 0, 0, 0⟩ ⟨5, 5, 5, 5⟩) ((9:ℚ)/20) = false ∧
      nmsKeep ((9:ℚ)/20) [(⟨0, 0, 0, 0⟩, 9/10), (⟨5, 5, 5, 5⟩, 4/5)]
        = [⟨0, ⟨0, 0, 0, 0⟩, 9/10⟩] :=
  ⟨⟨by norm_num, by norm_num [area, interArea]⟩,
    iou_zero_denominator_nan_suppresses ⟨0, 0, 0, 0⟩ ⟨5, 5, 5, 5⟩ (9/10) (4/5) (9/20)
      (by norm_num) (by norm_num [area, interArea])⟩

/-- Claim C2 counterexample: two degenerate (zero-area, non-overlapping)
boxes.  The code's IoU is NaN (`none`), not the `0` the claim states, and in
consequence `_nms` suppresses the second box (keep list `[0]`), whereas a
`0` IoU would have kept it (`0 <= 0.45`). -/
theorem iou_zero_denominator_counterexample :
    iouOpt ⟨0, 0, 0, 0⟩ ⟨5, 5, 5, 5⟩ = none ∧
      iouSpecZero ⟨0, 0, 0, 0⟩ ⟨5, 5, 5, 5⟩ = 0 ∧
      iouOpt ⟨0, 0, 0, 0⟩ ⟨5, 5, 5, 5⟩ ≠ some (iouSpecZero ⟨0, 0, 0, 0⟩ ⟨5, 5, 5, 5⟩) ∧
      nmsIdx ((9:ℚ)/20) [(⟨0, 0, 0, 0⟩, 9/10), (⟨5, 5, 5, 5⟩, 4/5)] = [0] := by
  refine ⟨?_, ?_, ?_, ?_⟩
  · norm_num [iouOpt, area, interArea]
  · norm_num [iouSpecZero, area, interArea]
  · have hnone : iouOpt ⟨0, 0, 0, 0⟩ ⟨5, 5, 5, 5⟩ = none := by
      norm_num [iouOpt, area, interArea]
    rw [hnone]
    simp
  · norm_num [nmsIdx, nmsKeep, enumerate, enumFrom, sortDesc, List.insertionSort,
      List.orderedInsert, scoreLe, nmsLoop, List.filter_cons, survives, iouOpt, iouLE,
      interArea, area]

/-- Claim C4 (amended): the confidence filter keeps exactly the candidates
with `confidence > Threshold` (strict): every detection in the final output
has confidence strictly above the threshold (so `confidence < Threshold`
implies absence), and every candidate with `confidence > Threshold` passes
the filter stage; a candidate with `confidence = Threshold` is discarded. -/
theorem conf_filter_strict (t iouT : ℚ) (cs : List (Box × ℚ)) :
    (∀ p ∈ postprocessDets t iouT cs, t < p.2) ∧
      ∀ q ∈ cs, t < q.2 → q ∈ confFilter t cs := by
  constructor
  · intro p hp
    have hp2 : p ∈ nmsBoxes iouT (confFilter t cs) := hp
    have h1 : p ∈ confFilter t cs := mem_nmsBoxes hp2
    have h2 := (List.mem_filter.mp h1).2
    simpa using h2
  · intro q hq hlt
    exact List.mem_filter.mpr ⟨hq, by simpa using hlt⟩

theorem conf_filter_strict_witness :
    ((⟨0, 0, 10, 10⟩, (1:ℚ)/2) ∈
        postprocessDets ((2:ℚ)/5) ((9:ℚ)/20) [((⟨0, 0, 10, 10⟩ : Box), (1:ℚ)/2)]) ∧
      (2:ℚ)/5 < 1/2 := by
  have hmem : ((⟨0, 0, 10, 10⟩ : Box), (1:ℚ)/2) ∈
      postprocessDets ((2:ℚ)/5) ((9:ℚ)/20) [((⟨0, 0, 10, 10⟩ : Box), (1:ℚ)/2)] := by
    norm_num [postprocessDets, confFilter, List.filter_cons, nmsBoxes, nmsKeep, enumerate,
      enumFrom, sortDesc, List.insertionSort, List.orderedInsert, scoreLe, nmsLoop,
      survives, iouOpt, iouLE, interArea, area]
  exact ⟨hmem, (conf_filter_strict ((2:ℚ)/5) ((9:ℚ)/20) _).1 _ hmem⟩

/-- Claim C4 counterexample: a single candidate whose confidence equals the
threshold.  The claim says `confidence >= Threshold` passes the filter, but
the code's strict mask `confidences > conf_threshold` discards it: the filter
stage and the final output are both empty. -/
theorem conf_filter_boundary_counterexample :
    (2:ℚ)/5 ≤ 2/5 ∧
      confFilter ((2:ℚ)/5) [((⟨0, 0, 10, 10⟩ : Box), (2:ℚ)/5)] = [] ∧
      postprocessDets ((2:ℚ)/5) ((9:ℚ)/20) [((⟨0, 0, 10, 10⟩ : Box), (2:ℚ)/5)] = [] := by
  refine ⟨le_refl _, ?_, ?_⟩
  · norm_num [confFilter, List.filter_cons]
  · norm_num [postprocessDets, confFilter, List.filter_cons, nmsBoxes, nmsKeep, enumerate,
      enumFrom, sortDesc, List.insertionSort, nmsLoop]

theorem letterbox_new_le (n dst : ℕ) (hn : 0 < n) (s : ℚ) (hs : s ≤ (dst:ℚ)/n) :
    ⌊(n:ℚ) * s⌋ ≤ (dst:ℤ) := by
  have hn' : (0:ℚ) < n := by exact_mod_cast hn
  have h2 : (n:ℚ) * s ≤ (dst:ℚ) := by
    calc (n:ℚ) * s ≤ (n:ℚ) * ((dst:ℚ)/n) := mul_le_mul_of_nonneg_left hs (le_of_lt hn')
      _ = dst := by field_simp
  calc ⌊(n:ℚ) * s⌋ ≤ ⌊(dst:ℚ)⌋ := Int.floor_le_floor h2
    _ = dst := Int.floor_natCast dst

theorem fdiv_two_bounds {m : ℤ} (hm : 0 ≤ m) :
    0 ≤ m.fdiv 2 ∧ 2 * m.fdiv 2 ≤ m ∧ m ≤ 2 * m.fdiv 2 + 1 := by
  rw [Int.fdiv_eq_ediv _ (by norm_num)]
  omega

/-- Claim C6 (amended): `preprocess` computes
`scale = min(dst/src_w, dst/src_h)`, `new_w = floor(src_w*scale)` and
`new_h = floor(src_h*scale)` (Python `int()` truncates, it does not round),
`pad_x = (dst - new_w) // 2` and `pad_y = (dst - new_h) // 2`; the pads are
nonnegative and tile the destination up to 1 pixel; and
`Compute(640, 480, 640)` yields `scale = 1`, `pad_x = 0`, `pad_y = 80`. -/
theorem letterbox_floor_spec (w h dst : ℕ) (hw : 0 < w) (hh : 0 < h) :
    (letterboxCompute w h dst).scale = min ((dst:ℚ)/w) ((dst:ℚ)/h) ∧
      (letterboxCompute w h dst).new_w = ⌊(w:ℚ) * (letterboxCompute w h dst).scale⌋ ∧
      (letterboxCompute w h dst).new_h = ⌊(h:ℚ) * (letterboxCompute w h dst).scale⌋ ∧
      (letterboxCompute w h dst).pad_x
        = ((dst:ℤ) - (letterboxCompute w h dst).new_w).fdiv 2 ∧
      (letterboxCompute w h dst).pad_y
        = ((dst:ℤ) - (letterboxCompute w h dst).new_h).fdiv 2 ∧
      0 ≤ (letterboxCompute w h dst).pad_x ∧
      0 ≤ (letterboxCompute w h dst).pad_y ∧
      (letterboxCompute w h dst).new_w + 2 * (letterboxCompute w h dst).pad_x ≤ (dst:ℤ) ∧
      (dst:ℤ) ≤ (letterboxCompute w h dst).new_w + 2 * (letterboxCompute w h dst).pad_x + 1 ∧
      (letterboxCompute w h dst).new_h + 2 * (letterboxCompute w h dst).pad_y ≤ (dst:ℤ) ∧
      (dst:ℤ) ≤ (letterboxCompute w h dst).new_h + 2 * (letterboxCompute w h dst).pad_y + 1 ∧
      (letterboxCompute 640 480 640).scale = 1 ∧
      (letterboxCompute 640 480 640).new_w = 640 ∧
      (letterboxCompute 640 480 640).new_h = 480 ∧
      (letterboxCompute 640 480 640).pad_x = 0 ∧
      (letterboxCompute 640 480 640).pad_y = 80 := by
  have hnw : (letterboxCompute w h dst).new_w
      = ⌊(w:ℚ) * min ((dst:ℚ)/w) ((dst:ℚ)/h)⌋ := rfl
  have hnh : (letterboxCompute w h dst).new_h
      = ⌊(h:ℚ) * min ((dst:ℚ)/w) ((dst:ℚ)/h)⌋ := rfl
  have hlew : (letterboxCompute w h dst).new_w ≤ (dst:ℤ) := by
    rw [hnw]
    exact letterbox_new_le w dst hw _ (min_le_left _ _)
  have hleh : (letterboxCompute w h dst).new_h ≤ (dst:ℤ) := by
    rw [hnh]
    exact letterbox_new_le h dst hh _ (min_le_right _ _)
  have hpadx : (letterboxCompute w h dst).pad_x
      = ((dst:ℤ) - (letterboxCompute w h dst).new_w).fdiv 2 := rfl
  have hpady : (letterboxCompute w h dst).pad_y
      = ((dst:ℤ) - (letterboxCompute w h dst).new_h).fdiv 2 := rfl
  have hpx := fdiv_two_bounds (by omega : 0 ≤ (dst:ℤ) - (letterboxCompute w h dst).new_w)
  have hpy := fdiv_two_bounds (by omega : 0 ≤ (dst:ℤ) - (letterboxCompute w h dst).new_h)
  refine ⟨rfl, rfl, rfl, rfl, rfl, ?_, ?_, ?_, ?_, ?_, ?_, ?_, ?_, ?_, ?_, ?_⟩
  · rw [hpadx]; exact hpx.1
  · rw [hpady]; exact hpy.1
  · rw [hpadx]; linarith [hpx.2.1]
  · rw [hpadx]; linarith [hpx.2.2]
  · rw [hpady]; linarith [hpy.2.1]
  · rw [hpady]; linarith [hpy.2.2]
  · norm_num [letterboxCompute, min_def]
  · norm_num [letterboxCompute, min_def, Int.floor_eq_iff]
  · norm_num [letterboxCompute, min_def, Int.floor_eq_iff]
  · norm_num [letterboxCompute, min_def, Int.floor_eq_iff, Int.fdiv_eq_ediv]
  · norm_num [letterboxCompute, min_def, Int.floor_eq_iff, Int.fdiv_eq_ediv]

theorem letterbox_floor_spec_witness :
    ((0:ℕ) < 640 ∧ (0:ℕ) < 480) ∧
      0 ≤ (letterboxCompute 640 480 640).pad_x ∧
      (letterboxCompute 640 480 640).new_w + 2 * (letterboxCompute 640 480 640).pad_x
        ≤ (640:ℤ) ∧
      (letterboxCompute 640 480 640).pad_y = 80 := by
  have h := letterbox_floor_spec 640 480 640 (by norm_num) (by norm_num)
  obtain ⟨-, -, -, -, -, h6, -, h8, -, -, -, -, -, -, -, h16⟩ := h
  exact ⟨⟨by norm_num, by norm_num⟩, h6, h8, h16⟩

/-- Claim C6 counterexample: `Compute(900, 700, 640)` has `scale = 32/45`,
so `src_h * scale = 497.78`; the code truncates to `new_h = 497`, while the
claim's `round(src_h*scale)` is `498`. -/
theorem letterbox_round_counterexample :
    (letterboxCompute 900 700 640).scale = 32/45 ∧
      (letterboxCompute 900 700 640).new_h = 497 ∧
      round ((700:ℚ) * (letterboxCompute 900 700 640).scale) = 498 ∧
      (letterboxCompute 900 700 640).new_h
        ≠ round ((700:ℚ) * (letterboxCompute 900 700 640).scale) := by
  have hsc : (letterboxCompute 900 700 640).scale = 32/45 := by
    norm_num [letterboxCompute, min_def]
  have hnh : (letterboxCompute 900 700 640).new_h = 497 := by
    norm_num [letterboxCompute, min_def, Int.floor_eq_iff]
  have hrd : round ((700:ℚ) * (letterboxCompute 900 700 640).scale) = 498 := by
    rw [hsc, round_eq]
    norm_num [Int.floor_eq_iff]
  refine ⟨hsc, hnh, hrd, ?_⟩
  rw [hnh, hrd]
  norm_num
